import Mathlib

/-!
Verification model of `kondo-lib` (file `src/kondo-lib/src/lib.rs`).

The Rust library discovers project directories by marker files, sizes their
artifact directories, and deletes them.  We embed the pure content of the
library over an explicit filesystem tree (`FSEntry`): directory listings
become lists of entries, paths become lists of path components, and the
fallible filesystem calls become `Option`-valued lookups on the tree.
-/

set_option maxHeartbeats 1000000

namespace Kondo

/-- The marker-file constants of the source (`FILE_*`). -/
def FILE_CARGO_TOML : String := "Cargo.toml"

def FILE_PACKAGE_JSON : String := "package.json"

def FILE_ASSEMBLY_CSHARP : String := "Assembly-CSharp.csproj"

def FILE_STACK_HASKELL : String := "stack.yaml"

def FILE_SBT_BUILD : String := "build.sbt"

def FILE_MVN_BUILD : String := "pom.xml"

def FILE_CMAKE_BUILD : String := "CMakeLists.txt"

def FILE_UNREAL_SUFFIX : String := ".uproject"

def FILE_JUPYTER_SUFFIX : String := ".ipynb"

def FILE_PYTHON_SUFFIX : String := ".py"

def FILE_COMPOSER_JSON : String := "composer.json"

/-- `enum ProjectType` from the source. -/
inductive ProjectType where
  | Cargo
  | Node
  | Unity
  | Stack
  | SBT
  | Maven
  | CMake
  | Unreal
  | Jupyter
  | Python
  | Composer
deriving DecidableEq, Repr

/-- The `PROJECT_*_DIRS` constants of the source, dispatched by project type
exactly as `Project::artifact_dirs` does. -/
def artifact_dirs : ProjectType → List String
  | .Cargo => ["target"]
  | .Node => ["node_modules"]
  | .Unity => ["Library", "Temp", "Obj", "Logs", "MemoryCaptures", "Build", "Builds"]
  | .Stack => [".stack-work"]
  | .SBT => ["target", "project/target"]
  | .Maven => ["target"]
  | .Unreal => ["Binaries", "Build", "Saved", "DerivedDataCache", "Intermediate"]
  | .Jupyter => [".ipynb_checkpoints"]
  | .Python => ["__pycache__", "__pypackages__", ".venv"]
  | .CMake => ["build"]
  | .Composer => ["vendor"]

/-- Character-level prefix test on lists, used to implement the suffix test
computably (the built-in `String.endsWith` works on byte positions, which the
kernel cannot evaluate). -/
def prefixCL : List Char → List Char → Bool
  | [], _ => true
  | _ :: _, [] => false
  | a :: as, b :: bs => a == b && prefixCL as bs

/-- `str::ends_with`: `pat` is a suffix of `s`. -/
def endsWithCL (s pat : String) : Bool := prefixCL pat.data.reverse s.data.reverse

/-- `get_project_type` from the source: the `match` arms in source order,
exact names first, then the three suffix guards. -/
def get_project_type (file_name : String) : Option ProjectType :=
  if file_name = FILE_CARGO_TOML then some .Cargo
  else if file_name = FILE_PACKAGE_JSON then some .Node
  else if file_name = FILE_ASSEMBLY_CSHARP then some .Unity
  else if file_name = FILE_STACK_HASKELL then some .Stack
  else if file_name = FILE_SBT_BUILD then some .SBT
  else if file_name = FILE_MVN_BUILD then some .Maven
  else if file_name = FILE_CMAKE_BUILD then some .CMake
  else if file_name = FILE_COMPOSER_JSON then some .Composer
  else if endsWithCL file_name FILE_UNREAL_SUFFIX then some .Unreal
  else if endsWithCL file_name FILE_JUPYTER_SUFFIX then some .Jupyter
  else if endsWithCL file_name FILE_PYTHON_SUFFIX then some .Python
  else none

/-- The classifier as the specification words it (section 4.1): an exact-name
table consulted first, then a suffix table.  Used only to compare with
`get_project_type`. -/
def exactTable : List (String × ProjectType) :=
  [("Cargo.toml", .Cargo), ("package.json", .Node), ("Assembly-CSharp.csproj", .Unity),
   ("stack.yaml", .Stack), ("build.sbt", .SBT), ("pom.xml", .Maven),
   ("CMakeLists.txt", .CMake), ("composer.json", .Composer)]

/-- Suffix table of the specification (section 4.1). -/
def suffixTable : List (String × ProjectType) :=
  [(".uproject", .Unreal), (".ipynb", .Jupyter), (".py", .Python)]

/-- Classifier modelled from the spec's words: exact-name match takes
priority over suffix match; otherwise no match. -/
def classifierSpec (s : String) : Option ProjectType :=
  match exactTable.lookup s with
  | some t => some t
  | none => (suffixTable.find? (fun p => endsWithCL s p.1)).map (fun p => p.2)

/-- A filesystem tree: regular files carry their byte size, directories
carry their immediate children. -/
inductive FSEntry where
  | file (name : String) (size : Nat)
  | dir (name : String) (children : List FSEntry)

/-- The name of an entry (`file_name()` on a `DirEntry`). -/
def FSEntry.name : FSEntry → String
  | .file n _ => n
  | .dir n _ => n

/-- Whether the entry is a directory (`file_type().is_dir()`). -/
def FSEntry.isDir : FSEntry → Bool
  | .file _ _ => false
  | .dir _ _ => true

/-- A UTF-8 continuation byte: `0x80 ≤ b ≤ 0xBF`. -/
def contByte (b : Nat) : Bool := 0x80 ≤ b && b ≤ 0xBF

/-- Strict UTF-8 decoding of a byte sequence, as Rust's `str::from_utf8`
validates it (overlong encodings, surrogates and values above `0x10FFFF`
rejected); `none` is an invalid sequence.  This models both
`OsStr::to_str` and `OsString::into_string`, which succeed exactly on
valid UTF-8. -/
def decodeUtf8 : List Nat → Option (List Char)
  | [] => some []
  | b :: bs =>
    if b < 0x80 then (decodeUtf8 bs).map (fun cs => Char.ofNat b :: cs)
    else if 0xC2 ≤ b && b ≤ 0xDF then
      match bs with
      | b₁ :: bs₁ =>
        if contByte b₁ then
          (decodeUtf8 bs₁).map (fun cs => Char.ofNat ((b - 0xC0) * 0x40 + (b₁ - 0x80)) :: cs)
        else none
      | [] => none
    else if 0xE0 ≤ b && b ≤ 0xEF then
      match bs with
      | b₁ :: b₂ :: bs₂ =>
        if (if b = 0xE0 then 0xA0 ≤ b₁ && b₁ ≤ 0xBF
            else if b = 0xED then 0x80 ≤ b₁ && b₁ ≤ 0x9F
            else contByte b₁) && contByte b₂ then
          (decodeUtf8 bs₂).map (fun cs =>
            Char.ofNat (((b - 0xE0) * 0x40 + (b₁ - 0x80)) * 0x40 + (b₂ - 0x80)) :: cs)
        else none
      | _ => none
    else if 0xF0 ≤ b && b ≤ 0xF4 then
      match bs with
      | b₁ :: b₂ :: b₃ :: bs₃ =>
        if (if b = 0xF0 then 0x90 ≤ b₁ && b₁ ≤ 0xBF
            else if b = 0xF4 then 0x80 ≤ b₁ && b₁ ≤ 0x8F
            else contByte b₁) && contByte b₂ && contByte b₃ then
          (decodeUtf8 bs₃).map (fun cs =>
            Char.ofNat ((((b - 0xF0) * 0x40 + (b₁ - 0x80)) * 0x40 + (b₂ - 0x80)) * 0x40
              + (b₃ - 0x80)) :: cs)
        else none
      | _ => none
    else none

/-- A filesystem tree for the sizer, with raw byte names: an `OsString`
need not be valid UTF-8, and `Project::size_dirs` has to convert each
child directory's name with `OsString::into_string` before classifying
it. -/
inductive FSEntryB where
  | file (name : List Nat) (size : Nat)
  | dir (name : List Nat) (children : List FSEntryB)

mutual

/-- `dir_size` from the source: total size in bytes of all regular files
reachable from the entry (symbolic links are outside the model).  It walks
paths, so a child's name never needs decoding. -/
def dir_size : FSEntryB → Nat
  | .file _ sz => sz
  | .dir _ cs => dir_size_list cs

/-- Sum of `dir_size` over a list of entries. -/
def dir_size_list : List FSEntryB → Nat
  | [] => 0
  | c :: cs => dir_size c + dir_size_list cs

end

/-- `struct Project` from the source; the path is a list of components. -/
structure Project where
  project_type : ProjectType
  path : List String
deriving DecidableEq, Repr

/-- `struct ProjectSize` from the source. -/
structure ProjectSize where
  artifact_size : Nat
  non_artifact_size : Nat
  dirs : List (String × Nat × Bool)
deriving DecidableEq, Repr

/-- The child directory's name decodes (`into_string` succeeds) and is an
artifact-directory name of the project type. -/
def isArtifactName (pt : ProjectType) (nb : List Nat) : Bool :=
  match decodeUtf8 nb with
  | some chars => (artifact_dirs pt).contains (String.mk chars)
  | none => false

/-- The loop body of `Project::size_dirs` over the listed children, in
listing order: files add their length to `non_artifact_size`; for a child
directory the source first converts its name with
`entry.file_name().into_string()` and on `Err(_)` skips the entry entirely
(`continue`), so a directory with a non-UTF-8 name is counted in neither
total; otherwise the directory is sized by `dir_size` and classified by
membership of the decoded name in the artifact list. -/
def size_dirs_go (pt : ProjectType) : List FSEntryB → ProjectSize
  | [] => ⟨0, 0, []⟩
  | .file _ sz :: rest =>
    let r := size_dirs_go pt rest
    ⟨r.artifact_size, sz + r.non_artifact_size, r.dirs⟩
  | .dir nb cs :: rest =>
    match decodeUtf8 nb with
    | none => size_dirs_go pt rest
    | some chars =>
      let n := String.mk chars
      let r := size_dirs_go pt rest
      let s := dir_size (.dir nb cs)
      if (artifact_dirs pt).contains n then
        ⟨s + r.artifact_size, r.non_artifact_size, (n, s, true) :: r.dirs⟩
      else
        ⟨r.artifact_size, s + r.non_artifact_size, (n, s, false) :: r.dirs⟩

/-- `Project::size_dirs`: `none` models `fs::read_dir` failing on the
project root (the early-return branch of the source), `some cs` models a
successful listing of the immediate children. -/
def size_dirs (pt : ProjectType) : Option (List FSEntryB) → ProjectSize
  | none => ⟨0, 0, []⟩
  | some cs => size_dirs_go pt cs

/-- Sum of the sizes of the immediate-child regular files. -/
def filesSum : List FSEntryB → Nat
  | [] => 0
  | .file _ sz :: r => sz + filesSum r
  | .dir _ _ :: r => filesSum r

/-- Sum of `dir_size` over the immediate-child directories whose artifact
status (`isArtifactName` as a Bool) equals `b`. -/
def dirsSumBy (pt : ProjectType) (b : Bool) : List FSEntryB → Nat
  | [] => 0
  | .file _ _ :: r => dirsSumBy pt b r
  | .dir nb cs :: r =>
    (if isArtifactName pt nb = b then dir_size (.dir nb cs) else 0) + dirsSumBy pt b r

/-- Sum of `dir_size` over all immediate-child directories, named or not. -/
def dirsSum : List FSEntryB → Nat
  | [] => 0
  | .file _ _ :: r => dirsSum r
  | .dir nb cs :: r => dir_size (.dir nb cs) + dirsSum r

/-- Every immediate-child directory has a valid-UTF-8 name, i.e.
`into_string` succeeds on all of them. -/
def dirNamesOk : List FSEntryB → Bool
  | [] => true
  | .file _ _ :: r => dirNamesOk r
  | .dir nb _ :: r => (decodeUtf8 nb).isSome && dirNamesOk r

/-! ### The scanner (`scan`, `ProjectIter::next`) -/

/-- `is_hidden` from the source: the name starts with a dot. -/
def startsDot (s : String) : Bool :=
  match s.data with
  | [] => false
  | c :: _ => c == '.'

mutual

/-- The sequence of directories yielded by the `jwalk` iterator built in
`scan`, as (path, listed children) pairs, for one entry found at path `p`:
depth first, root of the entry first.  `skip_hidden(true)` drops hidden
entries (handled by the caller `dirSeqList`); the `process_read_dir`
callback clears `read_children_path` exactly for child directories whose
own name classifies as a marker, so such a directory is yielded but not
descended into. -/
def dirSeqEntry (p : List String) : FSEntry → List (List String × List FSEntry)
  | .file _ _ => []
  | .dir n cs =>
    if (get_project_type n).isSome then [(p ++ [n], cs)]
    else (p ++ [n], cs) :: dirSeqList (p ++ [n]) cs

/-- Directory sequence contributed by the children of a directory at path
`p`: hidden names are skipped entirely (`skip_hidden(true)`). -/
def dirSeqList (p : List String) : List FSEntry → List (List String × List FSEntry)
  | [] => []
  | c :: cs => (if startsDot c.name then [] else dirSeqEntry p c) ++ dirSeqList p cs

end

/-- One directory visit in `ProjectIter::next`: the visited directory's
children are listed again and classified by name; the collected matches are
returned and the first one (if any) is taken, its `path` being the path of
the matching child entry (`de.path()`). -/
def firstMarker (p : List String) : List FSEntry → Option Project
  | [] => none
  | c :: cs =>
    match get_project_type c.name with
    | some ty => some { project_type := ty, path := p ++ [c.name] }
    | none => firstMarker p cs

/-- Driving `ProjectIter::next` over the remaining directory sequence until
the iterator is exhausted: a visit that finds no marker makes `next` return
`None` (the unconditional `return ... .next()` in the source), which ends
the iteration; a visit that finds a marker yields it and iteration
continues with the next directory. -/
def scanResults : List (List String × List FSEntry) → List Project
  | [] => []
  | (p, cs) :: rest =>
    match firstMarker p cs with
    | some proj => proj :: scanResults rest
    | none => []

/-- `scan` from the source, applied to a root entry: the `jwalk` walk
always yields and descends the root itself first. -/
def scan : FSEntry → List Project
  | .file _ _ => []
  | .dir n cs => scanResults (([n], cs) :: dirSeqList [n] cs)

/-! ### Paths and the cleaner (`Project::clean`, `clean`) -/

/-- Split on `'/'`, turning an artifact-directory name such as
`"project/target"` into its path components, as `Path::join` treats it. -/
def splitSlashAux : List Char → List Char → List String
  | [], acc => [String.mk acc.reverse]
  | c :: cs, acc =>
    if c = '/' then String.mk acc.reverse :: splitSlashAux cs []
    else splitSlashAux cs (c :: acc)

/-- Split a name on `'/'` into path components. -/
def splitSlash (s : String) : List String := splitSlashAux s.data []

/-- The artifact-directory names of a project type as relative component
paths (`self.path.join(ad)` minus the project root). -/
def artifactPaths (pt : ProjectType) : List (List String) :=
  (artifact_dirs pt).map splitSlash

/-- `a` is a prefix of (an ancestor of or equal to) `q`, component-wise. -/
def pathLe : List String → List String → Bool
  | [], _ => true
  | _ :: _, [] => false
  | x :: xs, y :: ys => x == y && pathLe xs ys

/-- Look up the entry at relative component path `q` below a list of
children. -/
def lookupRel : List String → List FSEntry → Option FSEntry
  | [], _ => none
  | [n], cs => cs.find? (fun c => c.name == n)
  | n :: n₁ :: q, cs =>
    match cs.find? (fun c => c.name == n) with
    | some (.dir _ ccs) => lookupRel (n₁ :: q) ccs
    | _ => none

/-- There is a directory at relative path `q`. -/
def dirAt (q : List String) (cs : List FSEntry) : Bool :=
  match lookupRel q cs with
  | some (.dir _ _) => true
  | _ => false

/-- One step of descending a removal below a child: apply `f` to the
children of a directory named `n`, leave every other entry alone. -/
def mapStep (n : String) (f : List FSEntry → List FSEntry) : FSEntry → FSEntry
  | .dir m ccs => if m = n then .dir m (f ccs) else .dir m ccs
  | c => c

/-- The effect of `fs::remove_dir_all(root.join(a))` on the children of the
root: the directory at relative path `a` is removed; a regular file at that
path is left in place (`remove_dir_all` fails on it), as is everything
else.  A nonexistent path leaves the tree unchanged (in the source such a
path is filtered out by `.exists()` before the call). -/
def removeRel : List String → List FSEntry → List FSEntry
  | [], cs => cs
  | [n], cs => cs.filter (fun c => !(c.isDir && c.name == n))
  | n :: n₁ :: q, cs => cs.map (mapStep n (removeRel (n₁ :: q)))

/-- `Project::clean` as a transformer of the project root's children:
remove each artifact directory in list order. -/
def Project.clean (pt : ProjectType) (cs : List FSEntry) : List FSEntry :=
  (artifactPaths pt).foldl (fun acc a => removeRel a acc) cs

/-- The artifact paths `Project::clean` would select for removal from a
given state: exactly those that currently exist
(`.filter(|ad| ad.exists())`). -/
def attemptsOf (pt : ProjectType) (cs : List FSEntry) : List (List String) :=
  (artifactPaths pt).filter (fun a => (lookupRel a cs).isSome)

mutual

/-- Well-formedness of a filesystem entry: directory listings never repeat
a name (true of a real directory). -/
def entryWf : FSEntry → Bool
  | .file _ _ => true
  | .dir _ ccs => listWf ccs

/-- Well-formedness of a directory listing: names are pairwise distinct and
the entries themselves are well formed. -/
def listWf : List FSEntry → Bool
  | [] => true
  | c :: cs => !((cs.map FSEntry.name).contains c.name) && entryWf c && listWf cs

end

/-- `fs::remove_dir_all` on the target at relative path `a` succeeds in our
model iff the target is not a regular file; `okTarget` says the path is
either absent or a directory, i.e. an attempt on it cannot fail. -/
def okTarget (a : List String) (cs : List FSEntry) : Bool :=
  match lookupRel a cs with
  | some e => e.isDir
  | none => true

/-- Attempt each path in order; on failure report it and continue (the
`for` loop of `Project::clean` with its `eprintln`): returns the attempted
paths and the reported failures, in order. -/
def attemptEach (fail : List String → Bool) (l : List (List String)) :
    List (List String) × List (List String) :=
  l.foldl (fun r a => (r.1 ++ [a], if fail a then r.2 ++ [a] else r.2)) ([], [])

/-- `Project::clean` as an attempt trace: filter the artifact paths by
existence (`ex`), then attempt each in order, reporting failures (`fail`)
and continuing. -/
def Project.cleanRun (pt : ProjectType) (ex fail : List String → Bool) :
    List (List String) × List (List String) :=
  attemptEach fail ((artifactPaths pt).filter ex)

/-- The `try_for_each` inside the `.map` closure of the free function
`clean(path)` — the only deletion pass of that function that type-checks —
under the sequential schedule: attempt in order but stop at (and
including) the first failure: returns (attempted, removed). -/
def tryEach (fail : List String → Bool) :
    List (List String) → List (List String) × List (List String)
  | [] => ([], [])
  | a :: rest =>
    if fail a then ([a], [])
    else
      let r := tryEach fail rest
      (a :: r.1, a :: r.2)

/-! ### `Project::name` and UTF-8 paths -/

/-- Result of a call that may panic (`unwrap()` on a `None`). -/
inductive PanicOr (α : Type) where
  | panicked
  | ok (val : α)
deriving DecidableEq, Repr

/-- `Option::unwrap`: panics on `None`. -/
def unwrapOpt {α : Type} : Option α → PanicOr α
  | some a => .ok a
  | none => .panicked

/-- `OsStr::to_str` on the raw bytes of a path: UTF-8 validation and
decoding. -/
def to_str (bytes : List Nat) : Option String :=
  (decodeUtf8 bytes).map (fun cs => String.mk cs)

/-- `Project::name` on the raw bytes of `self.path`:
`self.path.to_str().unwrap().to_string()`. -/
def Project.name (pathBytes : List Nat) : PanicOr String :=
  unwrapOpt (to_str pathBytes)

/-! ## Theorems -/

/-- Claim C1: the claim says `scan` yields exactly one `Project` for every
directory containing a marker file and none for its descendants.  The code
diverges twice: (1) on a root whose own listing has no marker,
`ProjectIter::next` returns `None` (`return rd....next()` is an
unconditional return), ending the whole scan, so the nested project
`root/sub` is never reported; (2) when the root itself holds a marker, the
walker still descends into `sub` (the `process_read_dir` callback prunes
only directories whose own *name* classifies as a marker), so a descendant
of a recognized project root is reported as a second project. -/
theorem scan_nested_divergence :
    scan (.dir "root" [.dir "sub" [.file "Cargo.toml" 0]]) = [] ∧
    scan (.dir "root" [.file "Cargo.toml" 0, .dir "sub" [.file "Cargo.toml" 0]]) =
      [{ project_type := .Cargo, path := ["root", "Cargo.toml"] },
       { project_type := .Cargo, path := ["root", "sub", "Cargo.toml"] }] := by
  exact ⟨by decide, by decide⟩

/-- Claim C2: the claim says every `Project` produced by `scan` has `path`
equal to the directory containing the marker file; scanning above `/repoA`
with `/repoA/Cargo.toml` should give `Project { Cargo, "/repoA" }`.  The
code instead stores `de.path()` of the *marker file entry*, so the
project's path is `repoA/Cargo.toml`, not `repoA`. -/
theorem scan_path_is_marker_file :
    scan (.dir "repoA" [.file "Cargo.toml" 10, .dir "src" [.file "main.rs" 5]]) =
      [{ project_type := .Cargo, path := ["repoA", "Cargo.toml"] }] := by
  decide

/-- Claim C3: the classifier is a pure total function of the filename,
returns at most one `ProjectType`, gives the eight exact-name matches
priority over the three suffix matches, and yields no match otherwise:
`get_project_type` agrees with the classifier transcribed from the
specification's matching rules on every string. -/
theorem get_project_type_spec (s : String) : get_project_type s = classifierSpec s := by
  by_cases h1 : s = "Cargo.toml"
  · subst h1; decide
  by_cases h2 : s = "package.json"
  · subst h2; decide
  by_cases h3 : s = "Assembly-CSharp.csproj"
  · subst h3; decide
  by_cases h4 : s = "stack.yaml"
  · subst h4; decide
  by_cases h5 : s = "build.sbt"
  · subst h5; decide
  by_cases h6 : s = "pom.xml"
  · subst h6; decide
  by_cases h7 : s = "CMakeLists.txt"
  · subst h7; decide
  by_cases h8 : s = "composer.json"
  · subst h8; decide
  simp only [get_project_type, classifierSpec, exactTable, suffixTable, List.lookup, List.find?,
    FILE_CARGO_TOML, FILE_PACKAGE_JSON, FILE_ASSEMBLY_CSHARP, FILE_STACK_HASKELL, FILE_SBT_BUILD,
    FILE_MVN_BUILD, FILE_CMAKE_BUILD, FILE_COMPOSER_JSON, FILE_UNREAL_SUFFIX, FILE_JUPYTER_SUFFIX,
    FILE_PYTHON_SUFFIX, if_neg h1, if_neg h2, if_neg h3, if_neg h4, if_neg h5, if_neg h6,
    if_neg h7, if_neg h8]
  have b1 : (s == "Cargo.toml") = false := by simp [h1]
  have b2 : (s == "package.json") = false := by simp [h2]
  have b3 : (s == "Assembly-CSharp.csproj") = false := by simp [h3]
  have b4 : (s == "stack.yaml") = false := by simp [h4]
  have b5 : (s == "build.sbt") = false := by simp [h5]
  have b6 : (s == "pom.xml") = false := by simp [h6]
  have b7 : (s == "CMakeLists.txt") = false := by simp [h7]
  have b8 : (s == "composer.json") = false := by simp [h8]
  simp only [b1, b2, b3, b4, b5, b6, b7, b8, cond_false]
  by_cases hu : endsWithCL s ".uproject" = true
  · simp [hu]
  rw [Bool.not_eq_true] at hu
  simp only [hu, if_false, Bool.false_eq_true]
  by_cases hj : endsWithCL s ".ipynb" = true
  · simp [hj]
  rw [Bool.not_eq_true] at hj
  simp only [hj, if_false, Bool.false_eq_true]
  by_cases hp2 : endsWithCL s ".py" = true
  · simp [hp2]
  rw [Bool.not_eq_true] at hp2
  simp [hp2]

/-- Claim C4 (counterexample): as stated the partition fails on the code:
`Project::size_dirs` converts each child directory's name with
`entry.file_name().into_string()` and on `Err(_)` skips the entry
(`continue`), so a child directory whose name is the non-UTF-8 byte `0xFF`
is counted in neither `artifact_size` nor `non_artifact_size` — its 5
bytes are omitted from both sides of the claimed no-omission equation. -/
theorem size_dirs_partition_cex :
    ¬ ((size_dirs .Cargo (some [.dir [0xFF] [.file [0x61] 5]])).artifact_size
        + (size_dirs .Cargo (some [.dir [0xFF] [.file [0x61] 5]])).non_artifact_size
      = filesSum [.dir [0xFF] [.file [0x61] 5]]
        + dirsSum [.dir [0xFF] [.file [0x61] 5]]) := by decide

/-- Claim C4 (amended: restricted to projects all of whose immediate child
directories have valid-UTF-8 names, so `into_string` never fails):
`size_dirs` partitions without loss or double counting — the artifact side
is exactly the recursively computed sizes of the immediate-child
directories whose decoded name is in the artifact list, the non-artifact
side is the immediate-child file sizes plus the remaining immediate-child
directory sizes, and the two sides together sum to all immediate-child
files plus all immediate-child directories. -/
theorem size_dirs_partition_utf8 (pt : ProjectType) (cs : List FSEntryB)
    (h : dirNamesOk cs = true) :
    (size_dirs pt (some cs)).artifact_size = dirsSumBy pt true cs ∧
    (size_dirs pt (some cs)).non_artifact_size = filesSum cs + dirsSumBy pt false cs ∧
    (size_dirs pt (some cs)).artifact_size + (size_dirs pt (some cs)).non_artifact_size
      = filesSum cs + dirsSum cs := by
  induction cs with
  | nil => simp [size_dirs, size_dirs_go, dirsSumBy, filesSum, dirsSum]
  | cons c rest ih =>
    cases c with
    | file nb sz =>
      have hrest : dirNamesOk rest = true := by simpa [dirNamesOk] using h
      have ih2 := ih hrest
      simp only [size_dirs, size_dirs_go, dirsSumBy, filesSum, dirsSum] at ih2 ⊢
      omega
    | dir nb ccs =>
      have hsplit := h
      simp only [dirNamesOk, Bool.and_eq_true] at hsplit
      obtain ⟨hsome, hrest⟩ := hsplit
      have ih2 := ih hrest
      cases hdec : decodeUtf8 nb with
      | none =>
        rw [hdec] at hsome
        simp at hsome
      | some chars =>
        have hart : isArtifactName pt nb = (artifact_dirs pt).contains (String.mk chars) := by
          simp [isArtifactName, hdec]
        cases hc : (artifact_dirs pt).contains (String.mk chars) <;>
          simp only [size_dirs, size_dirs_go, dirsSumBy, filesSum, dirsSum, hdec, hart, hc,
            if_true, if_false, Bool.false_eq_true, Bool.true_eq_false, reduceIte] at ih2 ⊢ <;>
          omega

/-- Witness for the amended C4 on a Cargo project with one UTF-8-named
child directory `target` (bytes of `"target"`). -/
theorem size_dirs_partition_utf8_witness :
    dirNamesOk [FSEntryB.dir [116, 97, 114, 103, 101, 116] [FSEntryB.file [97] 1]] = true ∧
    (size_dirs .Cargo
        (some [FSEntryB.dir [116, 97, 114, 103, 101, 116] [FSEntryB.file [97] 1]])).artifact_size
      = dirsSumBy .Cargo true [FSEntryB.dir [116, 97, 114, 103, 101, 116] [FSEntryB.file [97] 1]] :=
  ⟨by decide,
   (size_dirs_partition_utf8 .Cargo
     [FSEntryB.dir [116, 97, 114, 103, 101, 116] [FSEntryB.file [97] 1]] (by decide)).1⟩

/-- Claim C8: if the project root cannot be listed (`fs::read_dir` fails),
`size_dirs` returns the zeroed `ProjectSize` instead of failing. -/
theorem size_dirs_unlistable (pt : ProjectType) :
    size_dirs pt none = { artifact_size := 0, non_artifact_size := 0, dirs := [] } := rfl

/-- If some child of a visited directory classifies as a marker, the visit
produces a project whose type is one of the matched types. -/
theorem firstMarker_mem (p : List String) (cs : List FSEntry)
    (h : ∃ c ∈ cs, (get_project_type (FSEntry.name c)).isSome = true) :
    ∃ proj : Project, firstMarker p cs = some proj ∧
      ∃ c ∈ cs, get_project_type (FSEntry.name c) = some proj.project_type := by
  induction cs with
  | nil => simp at h
  | cons c rest ih =>
    cases hg : get_project_type (FSEntry.name c) with
    | some ty =>
      exact ⟨⟨ty, p ++ [FSEntry.name c]⟩, by simp [firstMarker, hg], c, by simp, hg⟩
    | none =>
      obtain ⟨c0, hc0, hs⟩ := h
      rcases List.mem_cons.mp hc0 with rfl | hmem
      · rw [hg] at hs; simp at hs
      · obtain ⟨proj, hm, c1, hc1, hc2⟩ := ih ⟨c0, hmem, hs⟩
        exact ⟨proj, by simp [firstMarker, hg, hm], c1, List.mem_cons_of_mem _ hc1, hc2⟩

/-- Claim C9: a visit by the scanner of a directory containing marker files
of one or more ecosystems contributes exactly one `Project` to the output
(the rest of the output continuing with the remaining directories), and its
ecosystem tag is one of the ecosystems matched by the marker files present. -/
theorem scan_multi_marker_one_project (p : List String) (cs : List FSEntry)
    (rest : List (List String × List FSEntry))
    (h : ∃ c ∈ cs, (get_project_type (FSEntry.name c)).isSome = true) :
    ∃ proj : Project, scanResults ((p, cs) :: rest) = proj :: scanResults rest ∧
      ∃ c ∈ cs, get_project_type (FSEntry.name c) = some proj.project_type := by
  obtain ⟨proj, hm, hw⟩ := firstMarker_mem p cs h
  exact ⟨proj, by simp [scanResults, hm], hw⟩

/-- Witness for C9 at a directory holding both `package.json` and
`Cargo.toml`. -/
theorem scan_multi_marker_one_project_witness :
    (∃ c ∈ [FSEntry.file "package.json" 1, FSEntry.file "Cargo.toml" 2],
        (get_project_type (FSEntry.name c)).isSome = true) ∧
    (∃ proj : Project,
        scanResults [(["d"], [FSEntry.file "package.json" 1, FSEntry.file "Cargo.toml" 2])]
          = proj :: scanResults [] ∧
        ∃ c ∈ [FSEntry.file "package.json" 1, FSEntry.file "Cargo.toml" 2],
          get_project_type (FSEntry.name c) = some proj.project_type) :=
  ⟨by decide, scan_multi_marker_one_project ["d"]
    [FSEntry.file "package.json" 1, FSEntry.file "Cargo.toml" 2] [] (by decide)⟩


theorem find?_filter_comm {α : Type} (p k : α → Bool) (cs : List α)
    (h : ∀ c, p c = true → k c = true) :
    (cs.filter k).find? p = cs.find? p := by
  induction cs with
  | nil => rfl
  | cons c rest ih =>
    cases hp : p c with
    | true =>
      rw [List.filter_cons_of_pos (h c hp), List.find?_cons_of_pos _ hp,
        List.find?_cons_of_pos _ hp]
    | false =>
      cases hk : k c with
      | true =>
        rw [List.filter_cons_of_pos hk, List.find?_cons_of_neg _ (by simp [hp]),
          List.find?_cons_of_neg _ (by simp [hp]), ih]
      | false =>
        rw [List.filter_cons_of_neg (by simp [hk]), List.find?_cons_of_neg _ (by simp [hp]), ih]

theorem find?_filter_found {α : Type} (p k : α → Bool) (cs : List α) (e : α)
    (hf : cs.find? p = some e) (hk : k e = true) :
    (cs.filter k).find? p = some e := by
  induction cs with
  | nil => simp at hf
  | cons c rest ih =>
    cases hp : p c with
    | true =>
      rw [List.find?_cons_of_pos _ hp] at hf
      obtain rfl : c = e := Option.some.inj hf
      rw [List.filter_cons_of_pos hk, List.find?_cons_of_pos _ hp]
    | false =>
      rw [List.find?_cons_of_neg _ (by simp [hp])] at hf
      cases hkc : k c with
      | true =>
        rw [List.filter_cons_of_pos hkc, List.find?_cons_of_neg _ (by simp [hp]), ih hf]
      | false =>
        rw [List.filter_cons_of_neg (by simp [hkc]), ih hf]

theorem mapStep_name (n : String) (f : List FSEntry → List FSEntry) (c : FSEntry) :
    (mapStep n f c).name = c.name := by
  cases c with
  | file m sz => rfl
  | dir m ccs =>
    simp only [mapStep]
    split <;> rfl

theorem find?_mapStep (n m : String) (f : List FSEntry → List FSEntry) (cs : List FSEntry) :
    (cs.map (mapStep n f)).find? (fun c => c.name == m)
      = (cs.find? (fun c => c.name == m)).map (mapStep n f) := by
  induction cs with
  | nil => rfl
  | cons c rest ih =>
    simp only [List.map_cons, List.find?]
    rw [mapStep_name]
    cases h : (FSEntry.name c == m) <;> simp [h, ih]

theorem find?_filter_ne (n m : String) (hnm : (m == n) = false) (cs : List FSEntry) :
    (cs.filter (fun c => !(c.isDir && c.name == n))).find? (fun c => c.name == m)
      = cs.find? (fun c => c.name == m) := by
  apply find?_filter_comm
  intro c hc
  have hm : FSEntry.name c = m := by simpa using hc
  have : (FSEntry.name c == n) = false := by rw [hm]; exact hnm
  simp [this]

theorem find?_filter_self_not_dir (n : String) (cs : List FSEntry) (f : FSEntry)
    (hf : (cs.filter (fun c => !(c.isDir && c.name == n))).find? (fun c => c.name == n)
      = some f) :
    f.isDir = false := by
  have hmem := List.mem_of_find?_eq_some hf
  have hname := List.find?_some hf
  rw [List.mem_filter] at hmem
  have hkeep := hmem.2
  cases hd : f.isDir
  · rfl
  · exfalso
    simp [hd] at hkeep hname
    exact hkeep hname


theorem lookupRel_removeRel_frame (a q : List String) (cs : List FSEntry)
    (h : (pathLe a q || pathLe q a) = false) :
    lookupRel q (removeRel a cs) = lookupRel q cs := by
  induction a generalizing q cs with
  | nil => simp [pathLe] at h
  | cons n as ih =>
    cases as with
    | nil =>
      cases q with
      | nil => simp [lookupRel]
      | cons m q' =>
        have hnm : (m == n) = false := by
          cases hmn : (m == n)
          · rfl
          · exfalso
            have hmn2 : m = n := by simpa using hmn
            subst hmn2
            simp [pathLe] at h
        cases q' with
        | nil =>
          show (List.filter _ cs).find? _ = cs.find? _
          exact find?_filter_ne n m hnm cs
        | cons y ys =>
          show (match (List.filter _ cs).find? (fun c => c.name == m) with
                | some (.dir _ ccs) => lookupRel (y :: ys) ccs
                | _ => none)
              = (match cs.find? (fun c => c.name == m) with
                | some (.dir _ ccs) => lookupRel (y :: ys) ccs
                | _ => none)
          rw [find?_filter_ne n m hnm cs]
    | cons n₁ q₂ =>
      cases q with
      | nil => simp [lookupRel]
      | cons m q' =>
        have hrm : removeRel (n :: n₁ :: q₂) cs = cs.map (mapStep n (removeRel (n₁ :: q₂))) := rfl
        cases hf : cs.find? (fun c => c.name == m) with
        | none =>
          have hmap : (cs.map (mapStep n (removeRel (n₁ :: q₂)))).find? (fun c => c.name == m)
              = none := by rw [find?_mapStep, hf]; rfl
          cases q' with
          | nil => rw [hrm]; show _ = _; simp [lookupRel, hmap, hf]
          | cons y ys => rw [hrm]; simp [lookupRel, hmap, hf]
        | some e =>
          have hmap : (cs.map (mapStep n (removeRel (n₁ :: q₂)))).find? (fun c => c.name == m)
              = some (mapStep n (removeRel (n₁ :: q₂)) e) := by
            rw [find?_mapStep, hf]; rfl
          have hename : FSEntry.name e = m := by
            have := List.find?_some hf
            simpa using this
          cases e with
          | file s z =>
            rw [hrm]
            cases q' <;> simp [lookupRel, hmap, hf, mapStep]
          | dir mm ccs =>
            have hmm : mm = m := by simpa [FSEntry.name] using hename
            subst hmm
            by_cases hmn : mm = n
            · cases q' with
              | nil =>
                exfalso
                simp [pathLe, hmn] at h
              | cons y ys =>
                have hpq : (pathLe (n₁ :: q₂) (y :: ys) || pathLe (y :: ys) (n₁ :: q₂)) = false := by
                  simpa [pathLe, hmn] using h
                have hstep : mapStep n (removeRel (n₁ :: q₂)) (.dir mm ccs)
                    = .dir mm (removeRel (n₁ :: q₂) ccs) := by simp [mapStep, hmn]
                rw [hstep] at hmap
                rw [hrm]
                simp only [lookupRel, hmap, hf]
                exact ih (y :: ys) ccs hpq
            · have hstep : mapStep n (removeRel (n₁ :: q₂)) (.dir mm ccs) = .dir mm ccs := by
                simp [mapStep, hmn]
              rw [hstep] at hmap
              rw [hrm]
              cases q' <;> simp [lookupRel, hmap, hf]

end Kondo

namespace Kondo

theorem dirAt_removeRel_self (a : List String) (cs : List FSEntry) (hne : a ≠ []) :
    dirAt a (removeRel a cs) = false := by
  induction a generalizing cs with
  | nil => exact absurd rfl hne
  | cons n as ih =>
    cases as with
    | nil =>
      cases hf : (List.filter (fun c => !(c.isDir && c.name == n)) cs).find?
          (fun c => c.name == n) with
      | none => simp only [dirAt, removeRel, lookupRel, hf]
      | some f =>
        have hnd := find?_filter_self_not_dir n cs f hf
        cases f with
        | file s z => simp only [dirAt, removeRel, lookupRel, hf]
        | dir mm ccs => simp [FSEntry.isDir] at hnd
    | cons n₁ q₂ =>
      have hrm : removeRel (n :: n₁ :: q₂) cs = cs.map (mapStep n (removeRel (n₁ :: q₂))) := rfl
      cases hf : cs.find? (fun c => c.name == n) with
      | none =>
        have hmap : (cs.map (mapStep n (removeRel (n₁ :: q₂)))).find? (fun c => c.name == n)
            = none := by rw [find?_mapStep, hf]; rfl
        simp [dirAt, lookupRel, hrm, hmap]
      | some e =>
        have hmap : (cs.map (mapStep n (removeRel (n₁ :: q₂)))).find? (fun c => c.name == n)
            = some (mapStep n (removeRel (n₁ :: q₂)) e) := by
          rw [find?_mapStep, hf]; rfl
        cases e with
        | file s z =>
          simp [dirAt, lookupRel, hrm, hmap, mapStep]
        | dir mm ccs =>
          have hmm : mm = n := by
            have := List.find?_some hf
            simpa [FSEntry.name] using this
          have hstep : mapStep n (removeRel (n₁ :: q₂)) (.dir mm ccs)
              = .dir mm (removeRel (n₁ :: q₂) ccs) := by simp [mapStep, hmm]
          rw [hstep] at hmap
          have hrec := ih ccs (by simp)
          simp only [dirAt, lookupRel, hrm, hmap] at hrec ⊢
          exact hrec

end Kondo

namespace Kondo

theorem dirAt_removeRel_mono (b q : List String) (cs : List FSEntry)
    (h : dirAt q cs = false) :
    dirAt q (removeRel b cs) = false := by
  induction b generalizing q cs with
  | nil => exact h
  | cons m bs ih =>
    cases bs with
    | nil =>
      cases q with
      | nil => simp [dirAt, lookupRel]
      | cons n q' =>
        cases hf : cs.find? (fun c => c.name == n) with
        | none =>
          have hnone : (cs.filter (fun c => !(c.isDir && c.name == m))).find?
              (fun c => c.name == n) = none := by
            rw [List.find?_eq_none] at hf ⊢
            intro c hc
            exact hf c (List.mem_of_mem_filter hc)
          cases q' <;> simp only [dirAt, removeRel, lookupRel, hnone]
        | some e =>
          cases hkeep : (!(FSEntry.isDir e && FSEntry.name e == m)) with
          | true =>
            have hff := find?_filter_found (fun c => c.name == n)
              (fun c => !(c.isDir && c.name == m)) cs e hf hkeep
            cases e with
            | file s z =>
              cases q' <;> simp only [dirAt, removeRel, lookupRel, hff]
            | dir mm ccs =>
              cases q' with
              | nil =>
                exfalso
                simp only [dirAt, lookupRel, hf] at h
                exact Bool.noConfusion h
              | cons y ys =>
                have h0 : dirAt (y :: ys) ccs = false := by
                  simpa only [dirAt, lookupRel, hf] using h
                simp only [dirAt, removeRel, lookupRel, hff]
                simpa only [dirAt] using h0
          | false =>
            cases hff : (cs.filter (fun c => !(c.isDir && c.name == m))).find?
                (fun c => c.name == n) with
            | none => cases q' <;> simp only [dirAt, removeRel, lookupRel, hff]
            | some f =>
              have hen := List.find?_some hf
              have hand := hkeep
              simp only [Bool.not_eq_false', Bool.and_eq_true] at hand
              have hnm : n = m := by
                have h1 : FSEntry.name e = n := by simpa using hen
                have h2 : FSEntry.name e = m := by simpa using hand.2
                rw [← h1, h2]
              have hff2 := hff
              rw [← hnm] at hff2
              have hnd := find?_filter_self_not_dir n cs f hff2
              cases f with
              | dir _ _ => simp [FSEntry.isDir] at hnd
              | file s z => cases q' <;> simp only [dirAt, removeRel, lookupRel, hff]
    | cons b₁ b₂ =>
      cases q with
      | nil => simp [dirAt, lookupRel]
      | cons n q' =>
        have hrm : removeRel (m :: b₁ :: b₂) cs = cs.map (mapStep m (removeRel (b₁ :: b₂))) := rfl
        cases hf : cs.find? (fun c => c.name == n) with
        | none =>
          have hmap : (cs.map (mapStep m (removeRel (b₁ :: b₂)))).find? (fun c => c.name == n)
              = none := by rw [find?_mapStep, hf]; rfl
          cases q' <;> simp only [dirAt, hrm, lookupRel, hmap]
        | some e =>
          have hmap : (cs.map (mapStep m (removeRel (b₁ :: b₂)))).find? (fun c => c.name == n)
              = some (mapStep m (removeRel (b₁ :: b₂)) e) := by rw [find?_mapStep, hf]; rfl
          cases e with
          | file s z =>
            cases q' <;> simp only [dirAt, hrm, lookupRel, hmap, mapStep]
          | dir mm ccs =>
            cases q' with
            | nil =>
              exfalso
              simp only [dirAt, lookupRel, hf] at h
              exact Bool.noConfusion h
            | cons y ys =>
              have h0 : dirAt (y :: ys) ccs = false := by
                simpa only [dirAt, lookupRel, hf] using h
              by_cases hmn : mm = m
              · have hstep : mapStep m (removeRel (b₁ :: b₂)) (.dir mm ccs)
                    = .dir mm (removeRel (b₁ :: b₂) ccs) := by simp [mapStep, hmn]
                rw [hstep] at hmap
                have hrec := ih (y :: ys) ccs h0
                simp only [dirAt, hrm, lookupRel, hmap] at hrec ⊢
                exact hrec
              · have hstep : mapStep m (removeRel (b₁ :: b₂)) (.dir mm ccs) = .dir mm ccs := by
                  simp [mapStep, hmn]
                rw [hstep] at hmap
                simp only [dirAt, hrm, lookupRel, hmap]
                simpa only [dirAt] using h0

end Kondo

namespace Kondo

theorem dirAt_fold_mono (l : List (List String)) (q : List String) (cs : List FSEntry)
    (h : dirAt q cs = false) :
    dirAt q (l.foldl (fun acc b => removeRel b acc) cs) = false := by
  induction l generalizing cs with
  | nil => exact h
  | cons b t ih => exact ih (removeRel b cs) (dirAt_removeRel_mono b q cs h)

theorem dirAt_clean_fold (l : List (List String)) (cs : List FSEntry) (a : List String)
    (ha : a ∈ l) (hne : a ≠ []) :
    dirAt a (l.foldl (fun acc b => removeRel b acc) cs) = false := by
  induction l generalizing cs with
  | nil => simp at ha
  | cons b t ih =>
    rcases List.mem_cons.mp ha with rfl | hmem
    · exact dirAt_fold_mono t a (removeRel a cs) (dirAt_removeRel_self a cs hne)
    · exact ih (removeRel b cs) hmem

theorem clean_frame_fold (l : List (List String)) (q : List String) (cs : List FSEntry)
    (h : ∀ a ∈ l, (pathLe a q || pathLe q a) = false) :
    lookupRel q (l.foldl (fun acc a => removeRel a acc) cs) = lookupRel q cs := by
  induction l generalizing cs with
  | nil => rfl
  | cons b t ih =>
    have h1 := h b (List.mem_cons_self b t)
    have h2 : ∀ a ∈ t, (pathLe a q || pathLe q a) = false := fun a ha =>
      h a (List.mem_cons_of_mem _ ha)
    rw [List.foldl_cons, ih (removeRel b cs) h2, lookupRel_removeRel_frame b q cs h1]

theorem artifactPaths_ne (pt : ProjectType) : ∀ a ∈ artifactPaths pt, a ≠ [] := by
  cases pt <;> decide

/-- Claim C5: `clean()` deletes only the subtrees rooted at the project path
joined with one of the artifact-directory names, and every entry whose
relative path is unrelated (neither below an artifact path nor an ancestor
of one) is left exactly intact; in particular files and non-artifact
directories such as `src` survive, and after cleaning no artifact path is a
directory any more. -/
theorem clean_frame (pt : ProjectType) (cs : List FSEntry) :
    (∀ q : List String, (∀ a ∈ artifactPaths pt, (pathLe a q || pathLe q a) = false) →
        lookupRel q (Project.clean pt cs) = lookupRel q cs) ∧
    (∀ a ∈ artifactPaths pt, dirAt a (Project.clean pt cs) = false) := by
  constructor
  · intro q hq
    exact clean_frame_fold (artifactPaths pt) q cs hq
  · intro a ha
    exact dirAt_clean_fold (artifactPaths pt) cs a ha (artifactPaths_ne pt a ha)

/-- Witness for C5 on a concrete Cargo project: `src` is untouched and
`target` is gone. -/
theorem clean_frame_witness :
    lookupRel ["src"] (Project.clean .Cargo
        [.dir "target" [.file "a" 1], .dir "src" [.file "m" 2], .file "Cargo.toml" 3])
      = lookupRel ["src"]
        [.dir "target" [.file "a" 1], .dir "src" [.file "m" 2], .file "Cargo.toml" 3] ∧
    dirAt ["target"] (Project.clean .Cargo
        [.dir "target" [.file "a" 1], .dir "src" [.file "m" 2], .file "Cargo.toml" 3]) = false :=
  ⟨(clean_frame .Cargo _).1 ["src"] (by decide),
   (clean_frame .Cargo _).2 ["target"] (by decide)⟩

end Kondo

namespace Kondo

/-- Claim C10: `Project::name` returns the path rendered as a string only
under the precondition that the path bytes are valid UTF-8; for a path that
is not valid UTF-8, `to_str` is `None`, the `unwrap` branch is reached and
the call panics instead of returning — `0xFF` is such a path, so `name` is
not total at the public interface. -/
theorem name_panics_on_invalid_utf8 :
    (∀ bytes s, to_str bytes = some s → Project.name bytes = .ok s) ∧
    (∀ bytes, to_str bytes = none → Project.name bytes = .panicked) ∧
    to_str [0xFF] = none := by
  refine ⟨?_, ?_, by decide⟩
  · intro bytes s h
    simp [Project.name, h, unwrapOpt]
  · intro bytes h
    simp [Project.name, h, unwrapOpt]

/-- Witness for C10: the panic branch is reached at the one-byte path
`0xFF`, and a valid UTF-8 path is rendered. -/
theorem name_panics_on_invalid_utf8_witness :
    Project.name [0xFF] = PanicOr.panicked ∧ Project.name [0x61] = PanicOr.ok "a" :=
  ⟨name_panics_on_invalid_utf8.2.1 [0xFF] name_panics_on_invalid_utf8.2.2,
   name_panics_on_invalid_utf8.1 [0x61] "a" (by decide)⟩

/-- Claim C6: the claim asserts the continue-on-error policy for both
`Project::clean()` and the free `clean(path)`.  `Project::clean` does
implement it: with every deletion failing on an SBT project, both artifact
paths are still attempted and both failures are reported.  But in
`clean(path)` the only deletion pass that type-checks is the fail-fast
`try_for_each` inside the `.map` closure (its body returns `Err`), so —
under the sequential schedule — a failure on `target` prevents the attempt
on the still-existing `project/target`; the subsequent `for` loop that
would re-attempt the remaining directories does not type-check
(`artifact_dirs()` is called on a `Result<(), io::Error>`). -/
theorem clean_policy_divergence :
    (Project.cleanRun .SBT (fun _ => true) (fun _ => true)).1
      = [["target"], ["project", "target"]] ∧
    (Project.cleanRun .SBT (fun _ => true) (fun _ => true)).2
      = [["target"], ["project", "target"]] ∧
    (tryEach (fun a => a == ["target"])
        ((artifactPaths .SBT).filter (fun _ => true))).1 = [["target"]] := by
  decide

end Kondo

namespace Kondo

theorem mapStep_isDir (n : String) (f : List FSEntry → List FSEntry) (c : FSEntry) :
    (mapStep n f c).isDir = c.isDir := by
  cases c with
  | file m sz => rfl
  | dir m ccs =>
    simp only [mapStep]
    split <;> rfl

theorem listWf_cons_iff (c : FSEntry) (t : List FSEntry) :
    listWf (c :: t) = true ↔
      ((t.map FSEntry.name).contains c.name) = false ∧ entryWf c = true ∧ listWf t = true := by
  simp only [listWf, Bool.and_eq_true, Bool.not_eq_true']
  tauto

theorem entryWf_of_mem (cs : List FSEntry) (c : FSEntry) (hwf : listWf cs = true)
    (hmem : c ∈ cs) : entryWf c = true := by
  induction cs with
  | nil => simp at hmem
  | cons d t ih =>
    obtain ⟨h1, h2, h3⟩ := (listWf_cons_iff d t).mp hwf
    rcases List.mem_cons.mp hmem with rfl | hmem2
    · exact h2
    · exact ih h3 hmem2

theorem wf_find?_unique (n : String) (cs : List FSEntry) (f : FSEntry)
    (hwf : listWf cs = true) (hmem : f ∈ cs) (hname : FSEntry.name f = n) :
    cs.find? (fun c => c.name == n) = some f := by
  induction cs with
  | nil => simp at hmem
  | cons c t ih =>
    obtain ⟨h1, h2, h3⟩ := (listWf_cons_iff c t).mp hwf
    rcases List.mem_cons.mp hmem with rfl | hmem2
    · exact List.find?_cons_of_pos _ (by simp [hname])
    · have hcn : (FSEntry.name c == n) = false := by
        cases hcn2 : (FSEntry.name c == n)
        · rfl
        · exfalso
          have hceq : FSEntry.name c = n := by simpa using hcn2
          have hin : FSEntry.name f ∈ t.map FSEntry.name := List.mem_map_of_mem _ hmem2
          rw [hname, ← hceq] at hin
          have hcont : ((t.map FSEntry.name).contains (FSEntry.name c)) = true :=
            List.elem_iff.mpr hin
          rw [hcont] at h1
          exact Bool.noConfusion h1
      rw [List.find?_cons_of_neg _ (by simp [hcn])]
      exact ih h3 hmem2

end Kondo

namespace Kondo

theorem names_map_mapStep (n : String) (f : List FSEntry → List FSEntry) (cs : List FSEntry) :
    (cs.map (mapStep n f)).map FSEntry.name = cs.map FSEntry.name := by
  rw [List.map_map]
  exact List.map_congr_left (fun c _ => mapStep_name n f c)

theorem contains_filter_mono (k : FSEntry → Bool) (cs : List FSEntry) (x : String)
    (h : ((cs.map FSEntry.name).contains x) = false) :
    (((cs.filter k).map FSEntry.name).contains x) = false := by
  cases hc : (((cs.filter k).map FSEntry.name).contains x) with
  | false => rfl
  | true =>
    exfalso
    have hmem := List.elem_iff.mp hc
    have hsub : (cs.filter k) ⊆ cs := fun _ hx => List.mem_of_mem_filter hx
    have hmm : x ∈ cs.map FSEntry.name := List.map_subset FSEntry.name hsub hmem
    have hx2 : ((cs.map FSEntry.name).contains x) = true := List.elem_iff.mpr hmm
    rw [hx2] at h
    exact Bool.noConfusion h

theorem listWf_filter (k : FSEntry → Bool) (cs : List FSEntry) (h : listWf cs = true) :
    listWf (cs.filter k) = true := by
  induction cs with
  | nil => exact h
  | cons c t ih =>
    obtain ⟨h1, h2, h3⟩ := (listWf_cons_iff c t).mp h
    cases hk : k c with
    | true =>
      rw [List.filter_cons_of_pos hk]
      exact (listWf_cons_iff c (t.filter k)).mpr
        ⟨contains_filter_mono k t c.name h1, h2, ih h3⟩
    | false =>
      rw [List.filter_cons_of_neg (by simp [hk])]
      exact ih h3

theorem listWf_removeRel (b : List String) (cs : List FSEntry) (h : listWf cs = true) :
    listWf (removeRel b cs) = true := by
  induction b generalizing cs with
  | nil => exact h
  | cons m bs ih =>
    cases bs with
    | nil => exact listWf_filter _ cs h
    | cons b₁ b₂ =>
      show listWf (cs.map (mapStep m (removeRel (b₁ :: b₂)))) = true
      revert h
      induction cs with
      | nil => intro h; exact h
      | cons c t ihc =>
        intro h
        obtain ⟨h1, h2, h3⟩ := (listWf_cons_iff c t).mp h
        rw [List.map_cons]
        apply (listWf_cons_iff _ _).mpr
        refine ⟨?_, ?_, ihc h3⟩
        · rw [names_map_mapStep, mapStep_name]
          exact h1
        · cases c with
          | file s z => exact h2
          | dir mm ccs =>
            show entryWf (mapStep m (removeRel (b₁ :: b₂)) (.dir mm ccs)) = true
            by_cases hmn : mm = m
            · have hstep : mapStep m (removeRel (b₁ :: b₂)) (.dir mm ccs)
                  = .dir mm (removeRel (b₁ :: b₂) ccs) := by simp [mapStep, hmn]
              rw [hstep]
              show listWf (removeRel (b₁ :: b₂) ccs) = true
              exact ih ccs (by simpa [entryWf] using h2)
            · have hstep : mapStep m (removeRel (b₁ :: b₂)) (.dir mm ccs) = .dir mm ccs := by
                simp [mapStep, hmn]
              rw [hstep]
              exact h2

end Kondo

namespace Kondo

theorem lookupRel_removeRel_none (b q : List String) (cs : List FSEntry)
    (h : lookupRel q cs = none) :
    lookupRel q (removeRel b cs) = none := by
  induction b generalizing q cs with
  | nil => exact h
  | cons m bs ih =>
    cases bs with
    | nil =>
      cases q with
      | nil => simp [lookupRel]
      | cons n q' =>
        cases hf : cs.find? (fun c => c.name == n) with
        | none =>
          have hnone : (cs.filter (fun c => !(c.isDir && c.name == m))).find?
              (fun c => c.name == n) = none := by
            rw [List.find?_eq_none] at hf ⊢
            intro c hc
            exact hf c (List.mem_of_mem_filter hc)
          cases q' <;> simp only [removeRel, lookupRel, hnone]
        | some e =>
          cases q' with
          | nil =>
            exfalso
            rw [show lookupRel [n] cs = cs.find? (fun c => c.name == n) from rfl, hf] at h
            exact Option.noConfusion h
          | cons y ys =>
            cases e with
            | file s z =>
              have hkeep : (!(FSEntry.isDir (FSEntry.file s z)
                  && FSEntry.name (FSEntry.file s z) == m)) = true := by
                simp [FSEntry.isDir]
              have hff := find?_filter_found (fun c => c.name == n) (fun c => !(c.isDir && c.name == m)) cs _ hf hkeep
              simp only [removeRel, lookupRel, hff]
            | dir mm ccs =>
              have hmm : mm = n := by
                have := List.find?_some hf
                simpa [FSEntry.name] using this
              have h0 : lookupRel (y :: ys) ccs = none := by
                simpa only [lookupRel, hf] using h
              by_cases hnm : mm = m
              · cases hff : (cs.filter (fun c => !(c.isDir && c.name == m))).find?
                    (fun c => c.name == n) with
                | none => simp only [removeRel, lookupRel, hff]
                | some f =>
                  have hmn2 : m = n := by rw [← hnm, hmm]
                  have hff2 := hff
                  rw [hmn2] at hff2
                  have hnd := find?_filter_self_not_dir n cs f hff2
                  cases f with
                  | dir _ _ => simp [FSEntry.isDir] at hnd
                  | file s z => simp only [removeRel, lookupRel, hff]
              · have hkeep : (!(FSEntry.isDir (FSEntry.dir mm ccs)
                    && FSEntry.name (FSEntry.dir mm ccs) == m)) = true := by
                  simp [FSEntry.isDir, FSEntry.name, hnm]
                have hff := find?_filter_found (fun c => c.name == n) (fun c => !(c.isDir && c.name == m)) cs _ hf hkeep
                simp only [removeRel, lookupRel, hff]
                exact h0
    | cons b₁ b₂ =>
      cases q with
      | nil => simp [lookupRel]
      | cons n q' =>
        have hrm : removeRel (m :: b₁ :: b₂) cs = cs.map (mapStep m (removeRel (b₁ :: b₂))) := rfl
        cases hf : cs.find? (fun c => c.name == n) with
        | none =>
          have hmap : (cs.map (mapStep m (removeRel (b₁ :: b₂)))).find? (fun c => c.name == n)
              = none := by rw [find?_mapStep, hf]; rfl
          cases q' <;> simp only [hrm, lookupRel, hmap]
        | some e =>
          have hmap : (cs.map (mapStep m (removeRel (b₁ :: b₂)))).find? (fun c => c.name == n)
              = some (mapStep m (removeRel (b₁ :: b₂)) e) := by rw [find?_mapStep, hf]; rfl
          cases q' with
          | nil =>
            exfalso
            rw [show lookupRel [n] cs = cs.find? (fun c => c.name == n) from rfl, hf] at h
            exact Option.noConfusion h
          | cons y ys =>
            cases e with
            | file s z => simp only [hrm, lookupRel, hmap, mapStep]
            | dir mm ccs =>
              have h0 : lookupRel (y :: ys) ccs = none := by
                simpa only [lookupRel, hf] using h
              by_cases hnm : mm = m
              · have hstep : mapStep m (removeRel (b₁ :: b₂)) (.dir mm ccs)
                    = .dir mm (removeRel (b₁ :: b₂) ccs) := by simp [mapStep, hnm]
                rw [hstep] at hmap
                simp only [hrm, lookupRel, hmap]
                exact ih (y :: ys) ccs h0
              · have hstep : mapStep m (removeRel (b₁ :: b₂)) (.dir mm ccs) = .dir mm ccs := by
                  simp [mapStep, hnm]
                rw [hstep] at hmap
                simp only [hrm, lookupRel, hmap]
                exact h0

end Kondo

namespace Kondo

theorem lookupRel_removeRel_kind (b q : List String) (cs : List FSEntry) (e : FSEntry)
    (hwf : listWf cs = true)
    (h : lookupRel q (removeRel b cs) = some e) :
    ∃ e₀, lookupRel q cs = some e₀ ∧ e.isDir = e₀.isDir := by
  induction b generalizing q cs e with
  | nil => exact ⟨e, h, rfl⟩
  | cons m bs ih =>
    cases bs with
    | nil =>
      cases q with
      | nil => simp [lookupRel] at h
      | cons n q' =>
        cases hff : (cs.filter (fun c => !(c.isDir && c.name == m))).find?
            (fun c => c.name == n) with
        | none =>
          exfalso
          cases q' <;> simp only [removeRel, lookupRel, hff] at h <;> exact Option.noConfusion h
        | some f =>
          have hfmem : f ∈ cs := List.mem_of_mem_filter (List.mem_of_find?_eq_some hff)
          have hfname : FSEntry.name f = n := by
            have := List.find?_some hff
            simpa using this
          have hforig : cs.find? (fun c => c.name == n) = some f :=
            wf_find?_unique n cs f hwf hfmem hfname
          cases q' with
          | nil =>
            have he : f = e := by
              simpa only [removeRel, lookupRel, hff, Option.some.injEq] using h
            exact ⟨f, by rw [show lookupRel [n] cs = cs.find? (fun c => c.name == n) from rfl,
              hforig], by rw [he]⟩
          | cons y ys =>
            cases f with
            | file s z =>
              exfalso
              simp only [removeRel, lookupRel, hff] at h
              exact Option.noConfusion h
            | dir mm ccs =>
              have h2 : lookupRel (y :: ys) ccs = some e := by
                simpa only [removeRel, lookupRel, hff] using h
              exact ⟨e, by simp only [lookupRel, hforig]; exact h2, rfl⟩
    | cons b₁ b₂ =>
      cases q with
      | nil => simp [lookupRel] at h
      | cons n q' =>
        have hrm : removeRel (m :: b₁ :: b₂) cs = cs.map (mapStep m (removeRel (b₁ :: b₂))) := rfl
        cases hf : cs.find? (fun c => c.name == n) with
        | none =>
          exfalso
          have hmap : (cs.map (mapStep m (removeRel (b₁ :: b₂)))).find? (fun c => c.name == n)
              = none := by rw [find?_mapStep, hf]; rfl
          cases q' <;> simp only [hrm, lookupRel, hmap] at h <;> exact Option.noConfusion h
        | some f =>
          have hmap : (cs.map (mapStep m (removeRel (b₁ :: b₂)))).find? (fun c => c.name == n)
              = some (mapStep m (removeRel (b₁ :: b₂)) f) := by rw [find?_mapStep, hf]; rfl
          cases q' with
          | nil =>
            have he : mapStep m (removeRel (b₁ :: b₂)) f = e := by
              simpa only [hrm, lookupRel, hmap, Option.some.injEq] using h
            refine ⟨f, by rw [show lookupRel [n] cs = cs.find? (fun c => c.name == n) from rfl,
              hf], ?_⟩
            rw [← he, mapStep_isDir]
          | cons y ys =>
            cases f with
            | file s z =>
              exfalso
              simp only [hrm, lookupRel, hmap, mapStep] at h
              exact Option.noConfusion h
            | dir mm ccs =>
              have hwfc : listWf ccs = true := by
                have := entryWf_of_mem cs _ hwf (List.mem_of_find?_eq_some hf)
                simpa [entryWf] using this
              by_cases hnm : mm = m
              · have hstep : mapStep m (removeRel (b₁ :: b₂)) (.dir mm ccs)
                    = .dir mm (removeRel (b₁ :: b₂) ccs) := by simp [mapStep, hnm]
                rw [hstep] at hmap
                have h2 : lookupRel (y :: ys) (removeRel (b₁ :: b₂) ccs) = some e := by
                  simpa only [hrm, lookupRel, hmap] using h
                obtain ⟨e₀, he0, hk⟩ := ih (y :: ys) ccs e hwfc h2
                exact ⟨e₀, by simp only [lookupRel, hf]; exact he0, hk⟩
              · have hstep : mapStep m (removeRel (b₁ :: b₂)) (.dir mm ccs) = .dir mm ccs := by
                  simp [mapStep, hnm]
                rw [hstep] at hmap
                have h2 : lookupRel (y :: ys) ccs = some e := by
                  simpa only [hrm, lookupRel, hmap] using h
                exact ⟨e, by simp only [lookupRel, hf]; exact h2, rfl⟩

theorem lookupRel_removeRel_self_none (a : List String) (cs : List FSEntry)
    (hwf : listWf cs = true) (hok : okTarget a cs = true) (hne : a ≠ []) :
    lookupRel a (removeRel a cs) = none := by
  induction a generalizing cs with
  | nil => exact absurd rfl hne
  | cons n as ih =>
    cases as with
    | nil =>
      show (cs.filter (fun c => !(c.isDir && c.name == n))).find? (fun c => c.name == n) = none
      rw [List.find?_eq_none]
      intro f hf hpn
      have hfc := List.mem_filter.mp hf
      have hfname : FSEntry.name f = n := by simpa using hpn
      have hforig := wf_find?_unique n cs f hwf hfc.1 hfname
      have hd : FSEntry.isDir f = true := by
        have hok2 := hok
        simp only [okTarget] at hok2
        rw [show lookupRel [n] cs = cs.find? (fun c => c.name == n) from rfl, hforig] at hok2
        exact hok2
      have hkeep := hfc.2
      rw [hd, hfname] at hkeep
      simp at hkeep
    | cons n₁ q₂ =>
      have hrm : removeRel (n :: n₁ :: q₂) cs = cs.map (mapStep n (removeRel (n₁ :: q₂))) := rfl
      cases hf : cs.find? (fun c => c.name == n) with
      | none =>
        have hmap : (cs.map (mapStep n (removeRel (n₁ :: q₂)))).find? (fun c => c.name == n)
            = none := by rw [find?_mapStep, hf]; rfl
        simp only [hrm, lookupRel, hmap]
      | some e =>
        have hmap : (cs.map (mapStep n (removeRel (n₁ :: q₂)))).find? (fun c => c.name == n)
            = some (mapStep n (removeRel (n₁ :: q₂)) e) := by rw [find?_mapStep, hf]; rfl
        cases e with
        | file s z => simp only [hrm, lookupRel, hmap, mapStep]
        | dir mm ccs =>
          have hmm : mm = n := by
            have := List.find?_some hf
            simpa [FSEntry.name] using this
          have hwfc : listWf ccs = true := by
            have := entryWf_of_mem cs _ hwf (List.mem_of_find?_eq_some hf)
            simpa [entryWf] using this
          have hok2 : okTarget (n₁ :: q₂) ccs = true := by
            simpa only [okTarget, lookupRel, hf] using hok
          have hstep : mapStep n (removeRel (n₁ :: q₂)) (.dir mm ccs)
              = .dir mm (removeRel (n₁ :: q₂) ccs) := by simp [mapStep, hmm]
          rw [hstep] at hmap
          simp only [hrm, lookupRel, hmap]
          exact ih ccs hwfc hok2 (by simp)

end Kondo

namespace Kondo

theorem okTarget_removeRel (b a : List String) (cs : List FSEntry)
    (hwf : listWf cs = true) (h : okTarget a cs = true) :
    okTarget a (removeRel b cs) = true := by
  cases he : lookupRel a (removeRel b cs) with
  | none => simp [okTarget, he]
  | some e =>
    obtain ⟨e₀, h0, hk⟩ := lookupRel_removeRel_kind b a cs e hwf he
    have hd : FSEntry.isDir e₀ = true := by simpa only [okTarget, h0] using h
    simp only [okTarget, he, hk, hd]

theorem lookupRel_fold_none (l : List (List String)) (q : List String) (cs : List FSEntry)
    (h : lookupRel q cs = none) :
    lookupRel q (l.foldl (fun acc b => removeRel b acc) cs) = none := by
  induction l generalizing cs with
  | nil => exact h
  | cons b t ih => exact ih (removeRel b cs) (lookupRel_removeRel_none b q cs h)

theorem lookupRel_clean_none (l : List (List String)) (cs : List FSEntry)
    (hwf : listWf cs = true)
    (hok : ∀ a ∈ l, okTarget a cs = true)
    (hne : ∀ a ∈ l, a ≠ []) :
    ∀ a ∈ l, lookupRel a (l.foldl (fun acc b => removeRel b acc) cs) = none := by
  induction l generalizing cs with
  | nil =>
    intro a ha
    simp at ha
  | cons b t ih =>
    intro a ha
    rw [List.foldl_cons]
    rcases List.mem_cons.mp ha with rfl | hmem
    · have h1 : lookupRel a (removeRel a cs) = none :=
        lookupRel_removeRel_self_none a cs hwf (hok a (List.mem_cons_self a t))
          (hne a (List.mem_cons_self a t))
      exact lookupRel_fold_none t a (removeRel a cs) h1
    · have hwf2 := listWf_removeRel b cs hwf
      have hok2 : ∀ x ∈ t, okTarget x (removeRel b cs) = true := fun x hx =>
        okTarget_removeRel b x cs hwf (hok x (List.mem_cons_of_mem _ hx))
      exact ih (removeRel b cs) hwf2 hok2 (fun x hx => hne x (List.mem_cons_of_mem _ hx)) a hmem

/-- Claim C7: if `clean()` succeeds in removing the artifact directories
(modelled: the directory listing is well formed and every artifact path is
absent or a directory, so no removal fails), then a second immediate call
selects nothing for removal — the `.exists()` filter finds no artifact path
— and hence attempts no deletion and raises no error. -/
theorem clean_idempotent (pt : ProjectType) (cs : List FSEntry)
    (hwf : listWf cs = true)
    (hok : ∀ a ∈ artifactPaths pt, okTarget a cs = true) :
    attemptsOf pt (Project.clean pt cs) = [] := by
  apply List.filter_eq_nil_iff.mpr
  intro a ha
  have hnone := lookupRel_clean_none (artifactPaths pt) cs hwf hok (artifactPaths_ne pt) a ha
  simp only [Project.clean]
  rw [hnone]
  simp

/-- Witness for C7 on a concrete Cargo project whose `target` is a
directory. -/
theorem clean_idempotent_witness :
    attemptsOf .Cargo (Project.clean .Cargo
      [.dir "target" [.file "a" 1], .dir "src" [], .file "Cargo.toml" 2]) = [] :=
  clean_idempotent .Cargo
    [.dir "target" [.file "a" 1], .dir "src" [], .file "Cargo.toml" 2]
    (by decide) (by decide)

end Kondo
